import Mathlib

/-!
Verification development for the mqtt-record / mqtt-replay tools.

The recorder (mqtt-record, `message_handler`) timestamps each inbound MQTT
message, serializes `MqttMessage{Millis int64, Topic string, Payload []byte}`
with msgpack, and appends to the output file a frame consisting of a
`binary.MaxVarintLen64` (= 10) byte buffer filled by `binary.PutVarint` with
the serialized length, followed by the serialized bytes.  The player
(mqtt-replay, `readEntry`, `Playback.Init`, `Playback.PlayNextMessage`)
reads the file back frame by frame and republishes with the original pacing.

Modelling conventions:
- Go byte slices, strings and files are modelled as `List Nat` with elements
  below 256; machine integers are `Int`/`Nat` with explicit `% 2^64`
  (two's-complement reinterpretation where Go converts).
- `os.File.Read(buf)` on a regular file fills `min (len buf) remaining`
  bytes, leaves the rest of the zero-initialized buffer untouched, and
  returns an error exactly when no bytes remain (`io.EOF`).
- the msgpack library (vmihailenco/msgpack/v5) is external to the
  repository; it is modelled below (`encodeMsg` / `decodeMsg`) as a faithful
  msgpack subset, see the doc comments there.
-/
/-- Recorded message, from `type MqttMessage struct { Millis int64; Topic string; Payload []byte }`
(identical in mqtt-record and mqtt-replay).  `Topic` is a Go string, i.e. a
byte sequence, modelled like `Payload` as `List Nat`. -/
structure MqttMessage where
  Millis : Int
  Topic : List Nat
  Payload : List Nat
deriving DecidableEq, Repr

/-- Representation bounds of the Go values: `Millis` is an `int64`, the
topic and payload are Go slices/strings (length below 2^32 in any recording
this tool can produce), and their elements are bytes. -/
def Bounded (m : MqttMessage) : Prop :=
  -(2 ^ 63) ≤ m.Millis ∧ m.Millis < 2 ^ 63 ∧
  m.Topic.length < 2 ^ 32 ∧ m.Payload.length < 2 ^ 32 ∧
  (∀ b ∈ m.Topic, b < 256) ∧ (∀ b ∈ m.Payload, b < 256)

instance (m : MqttMessage) : Decidable (Bounded m) := by
  unfold Bounded; infer_instance

/-! ## Big-endian byte groups (used by the msgpack model) -/
/-- Big-endian bytes of `v % 2^(8*n)`, `n` bytes wide. -/
def beBytes : Nat → Nat → List Nat
  | 0, _ => []
  | n + 1, v => v / 2 ^ (8 * n) :: beBytes n (v % 2 ^ (8 * n))

/-- Read `n` big-endian bytes, returning the value and the remaining input. -/
def readBE : Nat → List Nat → Option (Nat × List Nat)
  | 0, bs => some (0, bs)
  | _ + 1, [] => none
  | n + 1, b :: bs => (readBE n bs).map fun p => (b * 2 ^ (8 * n) + p.1, p.2)

/-- Match an expected literal byte sequence at the head of the input. -/
def expectBytes : List Nat → List Nat → Option (List Nat)
  | [], bs => some bs
  | _ :: _, [] => none
  | p :: ps, b :: bs => if b = p then expectBytes ps bs else none

/-- Read exactly `n` bytes from the input. -/
def readN (n : Nat) (bs : List Nat) : Option (List Nat × List Nat) :=
  if n ≤ bs.length then some (bs.take n, bs.drop n) else none

/-! ## Two's-complement int64 reinterpretations -/
/-- Go's `uint64(x)` for an `int64` value. -/
def toUInt64 (x : Int) : Nat := (x % (2 ^ 64 : Int)).toNat

/-- Go's `int64(u)` for a `uint64` value. -/
def ofUInt64 (u : Nat) : Int := if u < 2 ^ 63 then (u : Int) else (u : Int) - 2 ^ 64

/-! ## msgpack model of the `MqttMessage` record

Modelled from the spec: the serialization library
(`msgpack.Marshal` / `msgpack.Unmarshal` of vmihailenco/msgpack/v5) is not
part of this repository.  Spec §6 requires only "any standard structured
binary serialization ... as long as encode/decode round-trip exactly
preserves byte-for-byte payload content and integer timestamp precision to
the millisecond".  The model below is a faithful msgpack encoding of the
record: a 3-entry fixmap with fixstr keys `Millis`, `Topic`, `Payload`; the
timestamp in the 9-byte int64 format (0xd3 + big-endian two's complement),
the topic as a str (fixstr/str8/str16/str32), the payload as a bin
(bin8/bin16/bin32).  (The library picks minimal-width int formats; fixing
the int64 width does not affect any property stated here.)  The decoder
accepts exactly the encoder's layout, ignoring trailing bytes, and fails on
anything else — in particular on the empty input and on reserved bytes such
as 0xc1, where the library also fails. -/
/-- Bytes of the ASCII string `Millis`. -/
def keyMillis : List Nat := [0x4d, 0x69, 0x6c, 0x6c, 0x69, 0x73]

/-- Bytes of the ASCII string `Topic`. -/
def keyTopic : List Nat := [0x54, 0x6f, 0x70, 0x69, 0x63]

/-- Bytes of the ASCII string `Payload`. -/
def keyPayload : List Nat := [0x50, 0x61, 0x79, 0x6c, 0x6f, 0x61, 0x64]

/-- msgpack str header for a string of `n` bytes. -/
def strHeader (n : Nat) : List Nat :=
  if n < 32 then [0xa0 + n]
  else if n < 2 ^ 8 then [0xd9, n]
  else if n < 2 ^ 16 then 0xda :: beBytes 2 n
  else 0xdb :: beBytes 4 n

/-- Parse a msgpack str header, returning the announced byte length. -/
def readStrLen : List Nat → Option (Nat × List Nat)
  | [] => none
  | b :: bs =>
    if 0xa0 ≤ b ∧ b < 0xc0 then some (b - 0xa0, bs)
    else if b = 0xd9 then
      match bs with
      | c :: r => some (c, r)
      | [] => none
    else if b = 0xda then readBE 2 bs
    else if b = 0xdb then readBE 4 bs
    else none

/-- msgpack bin header for a byte blob of `n` bytes. -/
def binHeader (n : Nat) : List Nat :=
  if n < 2 ^ 8 then [0xc4, n]
  else if n < 2 ^ 16 then 0xc5 :: beBytes 2 n
  else 0xc6 :: beBytes 4 n

/-- Parse a msgpack bin header, returning the announced byte length. -/
def readBinLen : List Nat → Option (Nat × List Nat)
  | [] => none
  | b :: bs =>
    if b = 0xc4 then
      match bs with
      | c :: r => some (c, r)
      | [] => none
    else if b = 0xc5 then readBE 2 bs
    else if b = 0xc6 then readBE 4 bs
    else none

/-- Model of `msgpack.Marshal(&MqttMessage{Millis: t, Topic: topic, Payload: payload})`:
fixmap of 3 entries, keys `Millis` / `Topic` / `Payload` as fixstr,
values int64 / str / bin. -/
def encodeMsg (m : MqttMessage) : List Nat :=
  (0x83 :: 0xa6 :: keyMillis ++ [0xd3]) ++ beBytes 8 (toUInt64 m.Millis)
  ++ ((0xa5 :: keyTopic) ++ (strHeader m.Topic.length ++ m.Topic))
  ++ ((0xa7 :: keyPayload) ++ (binHeader m.Payload.length ++ m.Payload))

/-- Model of `msgpack.Unmarshal(buf, &msg)`: parses the layout produced by
`encodeMsg`, ignores trailing bytes, and returns `none` (the library's
non-nil error, leading the caller to `log.Fatalln`) on any other input. -/
def decodeMsg (bs : List Nat) : Option MqttMessage :=
  (expectBytes (0x83 :: 0xa6 :: keyMillis ++ [0xd3]) bs).bind fun r1 =>
  (readBE 8 r1).bind fun p1 =>
  (expectBytes (0xa5 :: keyTopic) p1.2).bind fun r2 =>
  (readStrLen r2).bind fun p2 =>
  (readN p2.1 p2.2).bind fun p3 =>
  (expectBytes (0xa7 :: keyPayload) p3.2).bind fun r3 =>
  (readBinLen r3).bind fun p4 =>
  (readN p4.1 p4.2).bind fun p5 =>
  some ⟨ofUInt64 p1.1, p3.1, p5.1⟩

/-! ## Go `encoding/binary` varint model

The recorder writes each frame's length with
`buf_size := make([]byte, binary.MaxVarintLen64); binary.PutVarint(buf_size, size)`
and writes the whole 10-byte buffer; the player reads a 10-byte buffer and
decodes it with `payload_size, _ := binary.Varint(buf)`. -/
/-- Bytes produced by `binary.PutUvarint`: 7-bit groups, least significant
first, continuation bit 0x80 on all but the last byte.  The Go loop runs
while `x >= 0x80`; the recursion is bounded by an explicit group count, 10
sufficing for every `uint64` argument. -/
def putUvarintAux : Nat → Nat → List Nat
  | 0, v => [v]
  | fuel + 1, v => if v < 128 then [v] else (128 + v % 128) :: putUvarintAux fuel (v / 128)

/-- `binary.PutUvarint` output (arguments are `uint64`, needing at most 10
seven-bit groups). -/
def putUvarint (v : Nat) : List Nat := putUvarintAux 10 v

/-- Number of bytes `binary.PutUvarint` writes for `v`. -/
def uvlen (v : Nat) : Nat :=
  if h : v < 128 then 1 else 1 + uvlen (v / 128)
decreasing_by exact Nat.div_lt_self (by omega) (by norm_num)

/-- Zigzag step of `binary.PutVarint`:
`ux := uint64(x) << 1; if x < 0 { ux = ^ux }`. -/
def zigzag (x : Int) : Nat :=
  if x < 0 then 2 ^ 64 - 1 - ((2 * x) % (2 ^ 64 : Int)).toNat
  else ((2 * x) % (2 ^ 64 : Int)).toNat

/-- Zero-pad a buffer on the right to `n` bytes (a Go `make`-allocated buffer
is zeroed, and a partial `Read` leaves the tail untouched). -/
def padTo (n : Nat) (bs : List Nat) : List Nat := bs ++ List.replicate (n - bs.length) 0

/-- The 10-byte length buffer the recorder writes for a frame:
`make([]byte, binary.MaxVarintLen64)` filled by `binary.PutVarint(buf, size)`,
unwritten trailing bytes remaining zero. -/
def sizeHeader (size : Int) : List Nat := padTo 10 (putUvarint (zigzag size))

/-- Decoding loop of `binary.Uvarint` over the byte buffer, carrying the byte
index `i`, the shift `s` and the accumulator `x` (`uint64` arithmetic, hence
the `% 2^64` truncation of the shifts). -/
def uvarintLoop : List Nat → Nat → Nat → Nat → Nat × Int
  | [], _, _, _ => (0, 0)
  | b :: rest, i, s, x =>
    if i = 10 then (0, -(i + 1 : Int))
    else if b < 128 then
      if i = 9 ∧ 1 < b then (0, -(i + 1 : Int))
      else (x ||| ((b <<< s) % 2 ^ 64), (i : Int) + 1)
    else uvarintLoop rest (i + 1) (s + 7) (x ||| (((b % 128) <<< s) % 2 ^ 64))

/-- Model of `binary.Uvarint`. -/
def uvarint (buf : List Nat) : Nat × Int := uvarintLoop buf 0 0 0

/-- Model of `binary.Varint`: un-zigzags the `Uvarint` value
(`x := int64(ux >> 1); if ux&1 != 0 { x = ^x }`). -/
def varint (buf : List Nat) : Int × Int :=
  match uvarint buf with
  | (ux, n) => if ux % 2 = 0 then (((ux / 2 : Nat) : Int), n) else (-((ux / 2 : Nat) : Int) - 1, n)

/-! ## Frames and the player's `readEntry` -/
/-- The serialized-then-length-prefixed frame the recorder appends per
message: `message_handler` writes `buf_size` (10 bytes, `PutVarint` of the
msgpack length) followed by `buf_payload` (the msgpack bytes). -/
def encodeFrame (m : MqttMessage) : List Nat :=
  sizeHeader ((encodeMsg m).length : Int) ++ encodeMsg m

/-- A recording file holding the given messages in order: the concatenation
of their frames (the recorder appends them with consecutive writes). -/
def encodeFile (ms : List MqttMessage) : List Nat := (ms.map encodeFrame).flatten

/-- Outcome of one `readEntry(file)` call in mqtt-replay:
`eof` is the `return MqttMessage{}, -1` taken when a `file.Read` returns an
error; `fatal` is the `log.Fatalln("Fatal error unpacking packet in recording
file")` taken when `msgpack.Unmarshal` fails (the process terminates);
`panicked` is the runtime panic of `make([]byte, payload_size)` when the
decoded prefix is negative; `ok msg size` is the normal
`return msg, payload_size`. -/
inductive ReadResult where
  | eof
  | fatal
  | panicked
  | ok (msg : MqttMessage) (size : Int)
deriving DecidableEq, Repr

/-- Model of mqtt-replay's `readEntry`, state-passing on the file's unread
bytes.  It reads up to 10 bytes into the zeroed prefix buffer (error only if
the file is exhausted), decodes `payload_size` with `binary.Varint` ignoring
the byte count, reads up to `payload_size` bytes into a zeroed payload buffer
(error only if the file is exhausted and `payload_size ≠ 0`; a zero-length
`Read` never errors), and unmarshals. -/
def readEntry (bs : List Nat) : ReadResult × List Nat :=
  if bs = [] then (.eof, [])
  else
    let buf := padTo 10 (bs.take 10)
    let bs1 := bs.drop 10
    let payload_size := (varint buf).1
    if payload_size < 0 then (.panicked, bs1)
    else if payload_size.toNat ≠ 0 ∧ bs1 = [] then (.eof, bs1)
    else
      match decodeMsg (padTo payload_size.toNat (bs1.take payload_size.toNat)) with
      | some msg => (.ok msg payload_size, bs1.drop payload_size.toNat)
      | none => (.fatal, bs1.drop payload_size.toNat)

/-- Result of `n` successive `readEntry` calls: `some` of the messages read,
in order, when the last call performed signals end-of-stream; `none` when a
call fatals/panics or more calls than `n` would be needed. -/
def readAll : Nat → List Nat → Option (List MqttMessage)
  | 0, _ => none
  | fuel + 1, bs =>
    match readEntry bs with
    | (.eof, _) => some []
    | (.fatal, _) => none
    | (.panicked, _) => none
    | (.ok m _, rest) => (readAll fuel rest).map (m :: ·)

/-! ## The playback state machine of mqtt-replay -/
/-- Go's zero value `MqttMessage{}`, returned by `readEntry` at end of
stream. -/
def emptyMessage : MqttMessage := ⟨0, [], []⟩

/-- Outcome of `Playback.Init`: `published m fm rest` means the fast-forward
loop published `m` immediately (no pacing wait) and set the anchor
`firstMsgMillis := fm` (with `firstMsgWallclock` sampled at that moment);
`fatalStop` is process termination inside `readEntry`; `fuelOut` means the
loop was still running after the given number of iterations (the Go loop has
no other exit). -/
inductive InitOutcome where
  | published (msg : MqttMessage) (firstMsgMillis : Int) (rest : List Nat)
  | fatalStop
  | fuelOut
deriving DecidableEq, Repr

/-- The `for` loop of `Playback.Init`: publish the current message once its
relative timestamp reaches `startMs`, otherwise read the next entry — taking
the zero `MqttMessage{}` when `readEntry` hits end of file — and retry.  The
Go loop is unbounded; `fuel` counts loop iterations so that non-termination
is expressible. -/
def initLoop (startMs recordingStartTime : Int) : Nat → MqttMessage → List Nat → InitOutcome
  | 0, _, _ => .fuelOut
  | fuel + 1, msg, bs =>
    if msg.Millis - recordingStartTime ≥ startMs then .published msg msg.Millis bs
    else
      match readEntry bs with
      | (.ok m _, bs') => initLoop startMs recordingStartTime fuel m bs'
      | (.eof, bs') => initLoop startMs recordingStartTime fuel emptyMessage bs'
      | (.fatal, _) => .fatalStop
      | (.panicked, _) => .fatalStop

/-- Model of `Playback.Init(startTimeSec, endTimeSec)`: reads the first
entry, takes its timestamp as `recordingStartTime`, and fast-forwards to the
requested start time.  `int64(startTimeSec*1000)` is Go `uint` arithmetic
reinterpreted as `int64`. -/
def playbackInit (startTimeSec : Nat) (bs : List Nat) (fuel : Nat) : InitOutcome :=
  let startMs := ofUInt64 (startTimeSec * 1000 % 2 ^ 64)
  match readEntry bs with
  | (.ok msg _, bs') => initLoop startMs msg.Millis fuel msg bs'
  | (.eof, bs') => initLoop startMs 0 fuel emptyMessage bs'
  | (.fatal, _) => .fatalStop
  | (.panicked, _) => .fatalStop

/-- One poll of the pacing wait: the loop index of the first `nowMillis()`
reading that reaches the target wall-clock time, scanning from poll `k`;
`clock j` is the `j`-th `nowMillis()` reading (the loop sleeps 200µs between
polls).  `none` when the target is not reached within `fuel` polls. -/
def spinWaitIdx (clock : Nat → Int) (target : Int) : Nat → Nat → Option Nat
  | 0, _ => none
  | fuel + 1, k => if clock k ≥ target then some k else spinWaitIdx clock target fuel (k + 1)

/-- Outcome of `Playback.PlayNextMessage`: `endOfRecording` and
`endTimeReached` are the two `return false` paths, `published m size k`
is the `return true` path with the message published at poll index `k`,
`fatalStop` is process termination inside `readEntry`, `timeNever` means the
pacing loop was still polling after `spinFuel` polls. -/
inductive PlayOutcome where
  | endOfRecording
  | endTimeReached
  | published (msg : MqttMessage) (size : Int) (pollIdx : Nat)
  | fatalStop
  | timeNever
deriving DecidableEq, Repr

/-- Accumulated halt offset of the pacing target.  Modelled from the spec:
the spec's `Halted` state and pause/resume transport controls are not in the
repository's player (`PlayNextMessage` has no halt path), so a session never
pauses and the accumulated paused duration stays zero. -/
def accumulatedHaltOffset : Int := 0

/-- Model of `Playback.PlayNextMessage`: reads the next entry (`false` on
end of recording), stops before publishing when the configured end time is
exceeded, then busy-waits (`clock`, `spinFuel` polls) until
`firstMsgWallclock + (msg.Millis - firstMsgMillis)` and publishes. -/
def playNextMessage (endTimeAvailable : Bool) (endTimeSec : Nat)
    (recordingStartTime firstMsgMillis firstMsgWallclock : Int)
    (clock : Nat → Int) (spinFuel : Nat) (bs : List Nat) : PlayOutcome × List Nat :=
  match readEntry bs with
  | (.eof, bs') => (.endOfRecording, bs')
  | (.fatal, bs') => (.fatalStop, bs')
  | (.panicked, bs') => (.fatalStop, bs')
  | (.ok msg size, bs') =>
    if endTimeAvailable ∧ msg.Millis - recordingStartTime > ofUInt64 (endTimeSec * 1000 % 2 ^ 64)
    then (.endTimeReached, bs')
    else
      match spinWaitIdx clock (firstMsgWallclock + (msg.Millis - firstMsgMillis)) spinFuel 0 with
      | some k => (.published msg size k, bs')
      | none => (.timeNever, bs')

/-! ## The recorder's write path and statistics (mqtt-record) -/
/-- `uint64` subtraction, for `timeDiff := uint64(t) - stats.LastMsgMillis`. -/
def wrapSub (a b : Nat) : Nat := (a % 2 ^ 64 + 2 ^ 64 - b % 2 ^ 64) % 2 ^ 64

/-- Per-metric running statistics, from
`type StatValues struct { initialized bool; min uint64; avg float64; max uint64 }`.
The `float64` running average is modelled with exact rational arithmetic. -/
structure StatValues where
  initialized : Bool
  min : Nat
  avg : ℚ
  max : Nat
deriving DecidableEq, Repr

/-- Model of `StatValues.updateTimeDiffStats(currentValue, numMsgs)`: on the
first update the min/max are seeded; the streaming average
`avg*(n-1)/n + current/n` and min/max updates run on every call. -/
def StatValues.updateTimeDiffStats (stats : StatValues) (currentValue numMsgs : Nat) :
    StatValues :=
  let s1 := if !stats.initialized then
      { stats with min := currentValue, max := currentValue, initialized := true }
    else stats
  let s2 := { s1 with
    avg := s1.avg * ((numMsgs : ℚ) - 1) / (numMsgs : ℚ) + (currentValue : ℚ) / (numMsgs : ℚ) }
  let s3 := if currentValue < s2.min then { s2 with min := currentValue } else s2
  if currentValue > s3.max then { s3 with max := currentValue } else s3

/-- Per-topic statistics, from
`type MsgStats struct { LastMsgMillis uint64; NumMsgs uint64; TimeDiffMillis StatValues; MsgSizeByte StatValues }`. -/
structure MsgStats where
  LastMsgMillis : Nat
  NumMsgs : Nat
  TimeDiffMillis : StatValues
  MsgSizeByte : StatValues
deriving DecidableEq, Repr

/-- Statistics part of the recorder's `message_handler` (the
`msgStats map[string]MsgStats` update): a topic's first message initializes
the entry; later messages bump the count and feed both metrics.  `t` is
`uint64(t)` of the capture timestamp and `size` the serialized frame-payload
length `uint64(size)`. -/
def handleStats (msgStats : List Nat → Option MsgStats) (topic : List Nat) (t size : Nat) :
    List Nat → Option MsgStats :=
  match msgStats topic with
  | none => fun k =>
      if k = topic then some ⟨t, 0, ⟨false, 0, 0, 0⟩, ⟨false, 0, 0, 0⟩⟩ else msgStats k
  | some stats => fun k =>
      if k = topic then
        some ⟨t, stats.NumMsgs + 1,
          stats.TimeDiffMillis.updateTimeDiffStats (wrapSub t stats.LastMsgMillis)
            (stats.NumMsgs + 1),
          stats.MsgSizeByte.updateTimeDiffStats size (stats.NumMsgs + 1)⟩
      else msgStats k

/-- Model of the recorder's `message_handler` effects: marshals the stamped
message, appends the 10-byte `PutVarint` size buffer and the msgpack bytes
to the file, and updates the per-topic statistics with the capture time and
the serialized size.  `t` is the `nowMillis()` stamp (non-negative). -/
def message_handler (fileBytes : List Nat) (msgStats : List Nat → Option MsgStats)
    (t : Nat) (topic payload : List Nat) :
    List Nat × (List Nat → Option MsgStats) :=
  let buf_payload := encodeMsg ⟨(t : Int), topic, payload⟩
  let size : Int := (buf_payload.length : Int)
  let buf_size := sizeHeader size
  (fileBytes ++ (buf_size ++ buf_payload), handleStats msgStats topic t buf_payload.length)

/-! ## The player's `publish` -/
/-- The broker client, reduced to what `publish` observes: whether the token
returned by `client.Publish(topic, 0, false, payload)` carries an error once
`token.Wait()` returns. -/
structure MqttClient where
  publishFails : List Nat → List Nat → Bool

/-- Observable effect of one `publish(client, msg)` call: the publish calls
issued as `(topic, qos, retained, payload)`, the log lines emitted, and
whether the call terminates the session. -/
structure PublishEffect where
  calls : List (List Nat × Nat × Bool × List Nat)
  logs : List (List Nat)
  terminated : Bool
deriving DecidableEq, Repr

/-- Model of mqtt-replay's `publish`: `token := client.Publish(msg.Topic,
byte(0), false, msg.Payload); token.Wait()` — one call, qos 0, no retain;
the token's error is never inspected, so nothing is logged, nothing is
retried and control returns normally whatever the outcome. -/
def publish (client : MqttClient) (msg : MqttMessage) : PublishEffect :=
  { calls := [(msg.Topic, 0, false, msg.Payload)], logs := [], terminated := false }

/-! ## Theorems -/

theorem beBytes_length (n v : Nat) : (beBytes n v).length = n := by
  induction n generalizing v with
  | zero => rfl
  | succ n ih => simp [beBytes, ih]

theorem readBE_beBytes (n v : Nat) (rest : List Nat) (h : v < 2 ^ (8 * n)) :
    readBE n (beBytes n v ++ rest) = some (v, rest) := by
  induction n generalizing v with
  | zero =>
    have hv : v = 0 := by simpa using h
    subst hv
    rfl
  | succ n ih =>
    have hlt : v % 2 ^ (8 * n) < 2 ^ (8 * n) := Nat.mod_lt _ (Nat.pos_pow_of_pos _ (by norm_num))
    have hd : v / 2 ^ (8 * n) * 2 ^ (8 * n) + v % 2 ^ (8 * n) = v := Nat.div_add_mod' v _
    simp only [beBytes, List.cons_append, readBE, List.append_eq, ih _ hlt,
      Option.map_some', hd]

theorem expectBytes_append (pat rest : List Nat) :
    expectBytes pat (pat ++ rest) = some rest := by
  induction pat with
  | nil => rfl
  | cons p ps ih => simp [expectBytes, ih]

theorem readN_append (xs rest : List Nat) {n : Nat} (h : xs.length = n) :
    readN n (xs ++ rest) = some (xs, rest) := by
  unfold readN
  rw [if_pos (by simp [← h]), List.take_left' h, List.drop_left' h]

theorem toUInt64_lt (x : Int) : toUInt64 x < 2 ^ 64 := by
  unfold toUInt64
  have h1 : x % (2 ^ 64 : Int) < 2 ^ 64 := Int.emod_lt_of_pos _ (by norm_num)
  omega

theorem ofUInt64_toUInt64 (x : Int) (h1 : -(2 ^ 63) ≤ x) (h2 : x < 2 ^ 63) :
    ofUInt64 (toUInt64 x) = x := by
  unfold ofUInt64 toUInt64
  have h3 : (0 : Int) ≤ x % 2 ^ 64 := Int.emod_nonneg _ (by norm_num)
  have h4 : x % (2 ^ 64 : Int) < 2 ^ 64 := Int.emod_lt_of_pos _ (by norm_num)
  have h5 : x % (2 ^ 64 : Int) = x ∨ x % (2 ^ 64 : Int) = x + 2 ^ 64 := by omega
  split <;> omega

theorem ofUInt64_small (v : Nat) (h : v < 2 ^ 63) : ofUInt64 (v % 2 ^ 64) = v := by
  unfold ofUInt64
  rw [Nat.mod_eq_of_lt (by omega)]
  rw [if_pos h]

theorem readStrLen_strHeader (n : Nat) (rest : List Nat) (h : n < 2 ^ 32) :
    readStrLen (strHeader n ++ rest) = some (n, rest) := by
  unfold strHeader
  split
  · next h1 =>
    have hx : 0xa0 + n < 0xc0 := by omega
    simp [readStrLen, hx]
  · next h1 =>
    split
    · next h2 =>
      simp [readStrLen]
    · next h2 =>
      split
      · next h3 =>
        have := readBE_beBytes 2 n rest (by norm_num at h3 ⊢; omega)
        simp [readStrLen, this]
      · next h3 =>
        have := readBE_beBytes 4 n rest (by norm_num at h ⊢; omega)
        simp [readStrLen, this]

theorem readBinLen_binHeader (n : Nat) (rest : List Nat) (h : n < 2 ^ 32) :
    readBinLen (binHeader n ++ rest) = some (n, rest) := by
  unfold binHeader
  split
  · next h1 =>
    simp [readBinLen]
  · next h1 =>
    split
    · next h2 =>
      have := readBE_beBytes 2 n rest (by norm_num at h2 ⊢; omega)
      simp [readBinLen, this]
    · next h2 =>
      have := readBE_beBytes 4 n rest (by norm_num at h ⊢; omega)
      simp [readBinLen, this]

/-- Round trip of the msgpack model: decoding an encoded message (with any
trailing bytes) recovers the message exactly. -/
theorem decodeMsg_encodeMsg (m : MqttMessage) (rest : List Nat) (hm : Bounded m) :
    decodeMsg (encodeMsg m ++ rest) = some m := by
  obtain ⟨h1, h2, h3, h4, -, -⟩ := hm
  have hbe : ∀ r, readBE 8 (beBytes 8 (toUInt64 m.Millis) ++ r)
      = some (toUInt64 m.Millis, r) :=
    fun r => readBE_beBytes _ _ _ (by simpa using toUInt64_lt m.Millis)
  have hstr : ∀ r, readStrLen (strHeader m.Topic.length ++ r) = some (m.Topic.length, r) :=
    fun r => readStrLen_strHeader _ _ h3
  have htop : ∀ r, readN m.Topic.length (m.Topic ++ r) = some (m.Topic, r) :=
    fun r => readN_append _ _ rfl
  have hbin : ∀ r, readBinLen (binHeader m.Payload.length ++ r) = some (m.Payload.length, r) :=
    fun r => readBinLen_binHeader _ _ h4
  have hpay : ∀ r, readN m.Payload.length (m.Payload ++ r) = some (m.Payload, r) :=
    fun r => readN_append _ _ rfl
  have e1 : encodeMsg m ++ rest
      = (0x83 :: 0xa6 :: keyMillis ++ [0xd3]) ++ (beBytes 8 (toUInt64 m.Millis)
        ++ ((0xa5 :: keyTopic) ++ (strHeader m.Topic.length ++ (m.Topic
        ++ ((0xa7 :: keyPayload) ++ (binHeader m.Payload.length ++ (m.Payload ++ rest))))))) := by
    simp [encodeMsg]
  rw [e1]
  unfold decodeMsg
  simp only [expectBytes_append, Option.some_bind, hbe, hstr, htop, hbin, hpay,
    ofUInt64_toUInt64 _ h1 h2]

theorem uvlen_pos (v : Nat) : 1 ≤ uvlen v := by
  rw [uvlen]
  split <;> omega

theorem putUvarintAux_length (fuel : Nat) : ∀ v : Nat, uvlen v ≤ fuel →
    (putUvarintAux fuel v).length = uvlen v := by
  induction fuel with
  | zero =>
    intro v hf
    have := uvlen_pos v
    omega
  | succ fuel ih =>
    intro v hf
    by_cases hv : v < 128
    · simp only [putUvarintAux, if_pos hv]
      rw [uvlen, dif_pos hv]
      rfl
    · have hu : uvlen v = 1 + uvlen (v / 128) := by rw [uvlen, dif_neg hv]
      simp only [putUvarintAux, if_neg hv, List.length_cons]
      rw [ih (v / 128) (by omega)]
      omega

theorem putUvarint_length (v : Nat) (h : uvlen v ≤ 10) : (putUvarint v).length = uvlen v :=
  putUvarintAux_length 10 v h

theorem uvlen_le (k v : Nat) (hk : 1 ≤ k) (h : v < 2 ^ (7 * k)) : uvlen v ≤ k := by
  induction k generalizing v with
  | zero => omega
  | succ k ih =>
    rw [uvlen]
    split
    · omega
    · next hv =>
      rcases Nat.eq_zero_or_pos k with hk0 | hk0
      · subst hk0
        norm_num at h
        omega
      · have h2 : (2 : Nat) ^ (7 * (k + 1)) = 2 ^ (7 * k) * 128 := by
          rw [Nat.mul_succ, pow_add]
          norm_num
        rw [h2] at h
        have hdiv : v / 128 < 2 ^ (7 * k) := by omega
        have := ih (v / 128) hk0 hdiv
        omega

theorem zigzag_lt (x : Int) : zigzag x < 2 ^ 64 := by
  unfold zigzag
  have h1 : (0 : Int) ≤ (2 * x) % 2 ^ 64 := Int.emod_nonneg _ (by norm_num)
  have h2 : (2 * x) % (2 ^ 64 : Int) < 2 ^ 64 := Int.emod_lt_of_pos _ (by norm_num)
  split <;> omega

theorem zigzag_nonneg (s : Int) (h0 : 0 ≤ s) (h1 : s < 2 ^ 62) :
    zigzag s = 2 * s.toNat := by
  unfold zigzag
  rw [if_neg (by omega)]
  have he : (2 * s) % (2 ^ 64 : Int) = 2 * s := Int.emod_eq_of_lt (by omega) (by omega)
  rw [he]
  omega

theorem testBit_mul_pow_add (c s x i : Nat) (hx : x < 2 ^ s) :
    (c * 2 ^ s + x).testBit i = if i < s then x.testBit i else c.testBit (i - s) := by
  induction s generalizing c x i with
  | zero =>
    have hx0 : x = 0 := by omega
    subst hx0
    simp
  | succ s ih =>
    cases i with
    | zero =>
      rw [if_pos (by omega)]
      have hm : (c * 2 ^ (s + 1) + x) % 2 = x % 2 := by
        rw [pow_succ, ← mul_assoc]
        omega
      simp [Nat.testBit_zero, hm]
    | succ i =>
      have hdiv : (c * 2 ^ (s + 1) + x) / 2 = c * 2 ^ s + x / 2 := by
        rw [pow_succ, ← mul_assoc]
        omega
      rw [Nat.testBit_add_one, hdiv, ih c (x / 2) i (by omega)]
      by_cases hc : i < s
      · rw [if_pos hc, if_pos (by omega), ← Nat.testBit_add_one]
      · rw [if_neg hc, if_neg (by omega)]
        congr 1
        omega

theorem lor_shift_eq_add (x c s : Nat) (hx : x < 2 ^ s) :
    x ||| c <<< s = c * 2 ^ s + x := by
  apply Nat.eq_of_testBit_eq
  intro i
  rw [Nat.testBit_lor, Nat.testBit_shiftLeft, testBit_mul_pow_add c s x i hx]
  by_cases h : i < s
  · rw [if_pos h]
    have hd : decide (i ≥ s) = false := by simp; omega
    simp [hd]
  · rw [if_neg h]
    have hx' : x.testBit i = false :=
      Nat.testBit_lt_two_pow (lt_of_lt_of_le hx (Nat.pow_le_pow_right (by norm_num) (by omega)))
    have hd : decide (i ≥ s) = true := by simp; omega
    simp [hd, hx']

theorem uvarintLoop_spec (fuel : Nat) : ∀ (v i x : Nat) (rest : List Nat),
    uvlen v ≤ fuel → uvlen v + i ≤ 9 → x < 2 ^ (7 * i) →
    uvarintLoop (putUvarintAux fuel v ++ rest) i (7 * i) x
      = (v * 2 ^ (7 * i) + x, ((i + uvlen v : Nat) : Int)) := by
  induction fuel with
  | zero =>
    intro v i x rest hf hlen hx
    have := uvlen_pos v
    omega
  | succ fuel ih =>
    intro v i x rest hf hlen hx
    have h7i : 7 * i ≤ 56 := by
      have := uvlen_pos v
      omega
    simp only [putUvarintAux]
    by_cases hv : v < 128
    · rw [if_pos hv]
      have hu : uvlen v = 1 := by rw [uvlen, dif_pos hv]
      have hi : i ≤ 8 := by omega
      have hsm : (v <<< (7 * i)) % 2 ^ 64 = v <<< (7 * i) := by
        rw [Nat.shiftLeft_eq, Nat.mod_eq_of_lt]
        calc v * 2 ^ (7 * i) < 128 * 2 ^ 56 := by
              have := Nat.pow_le_pow_right (show 1 ≤ 2 by norm_num) h7i
              have hvp : v * 2 ^ (7 * i) < 128 * 2 ^ (7 * i) :=
                (Nat.mul_lt_mul_right (Nat.pos_pow_of_pos _ (by norm_num))).mpr hv
              calc v * 2 ^ (7 * i) < 128 * 2 ^ (7 * i) := hvp
                _ ≤ 128 * 2 ^ 56 := Nat.mul_le_mul_left _ this
          _ < 2 ^ 64 := by norm_num
      simp only [List.cons_append, List.nil_append, uvarintLoop]
      rw [if_neg (by omega), if_pos hv, if_neg (by omega), hsm,
        lor_shift_eq_add x v (7 * i) hx, hu]
      constructor
    · rw [if_neg hv]
      have hu : uvlen v = 1 + uvlen (v / 128) := by rw [uvlen, dif_neg hv]
      have hb : (128 + v % 128) % 128 = v % 128 := by omega
      have hsm : ((v % 128) <<< (7 * i)) % 2 ^ 64 = (v % 128) <<< (7 * i) := by
        rw [Nat.shiftLeft_eq, Nat.mod_eq_of_lt]
        have h1 : v % 128 < 128 := by omega
        have h2 : (2:Nat) ^ (7 * i) ≤ 2 ^ 56 := Nat.pow_le_pow_right (by norm_num) h7i
        calc v % 128 * 2 ^ (7 * i) < 128 * 2 ^ (7 * i) :=
              (Nat.mul_lt_mul_right (Nat.pos_pow_of_pos _ (by norm_num))).mpr h1
          _ ≤ 128 * 2 ^ 56 := Nat.mul_le_mul_left _ h2
          _ < 2 ^ 64 := by norm_num
      have hx' : v % 128 * 2 ^ (7 * i) + x < 2 ^ (7 * (i + 1)) := by
        have h1 : v % 128 < 128 := by omega
        have h2 : v % 128 * 2 ^ (7 * i) + x < 128 * 2 ^ (7 * i) := by
          have := Nat.mul_le_mul_right (2 ^ (7 * i)) (show v % 128 + 1 ≤ 128 by omega)
          calc v % 128 * 2 ^ (7 * i) + x < v % 128 * 2 ^ (7 * i) + 2 ^ (7 * i) := by omega
            _ = (v % 128 + 1) * 2 ^ (7 * i) := by ring
            _ ≤ 128 * 2 ^ (7 * i) := this
        calc v % 128 * 2 ^ (7 * i) + x < 128 * 2 ^ (7 * i) := h2
          _ = 2 ^ (7 * (i + 1)) := by rw [Nat.mul_succ, pow_add]; ring
      have hlen' : uvlen (v / 128) + (i + 1) ≤ 9 := by omega
      simp only [List.cons_append, List.append_eq, uvarintLoop]
      rw [if_neg (by omega), if_neg (by omega), hb, hsm,
        lor_shift_eq_add x (v % 128) (7 * i) hx,
        show 7 * i + 7 = 7 * (i + 1) by ring,
        ih (v / 128) (i + 1) (v % 128 * 2 ^ (7 * i) + x) rest (by omega) hlen' hx']
      simp only [Prod.mk.injEq]
      refine ⟨?_, ?_⟩
      · calc v / 128 * 2 ^ (7 * (i + 1)) + (v % 128 * 2 ^ (7 * i) + x)
            = (v / 128 * 128 + v % 128) * 2 ^ (7 * i) + x := by
              rw [Nat.mul_succ, pow_add]
              ring
          _ = v * 2 ^ (7 * i) + x := by rw [Nat.div_add_mod' v 128]
      · congr 1
        omega

theorem uvarint_putUvarint (v : Nat) (rest : List Nat) (h : uvlen v ≤ 9) :
    uvarint (putUvarint v ++ rest) = (v, ((uvlen v : Nat) : Int)) := by
  have := uvarintLoop_spec 10 v 0 0 rest (by omega) (by omega) (by norm_num)
  simpa [uvarint, putUvarint] using this

theorem sizeHeader_length (s : Int) : (sizeHeader s).length = 10 := by
  have h1 : uvlen (zigzag s) ≤ 10 :=
    uvlen_le 10 _ (by norm_num) (lt_trans (zigzag_lt s) (by norm_num))
  unfold sizeHeader padTo
  rw [List.length_append, List.length_replicate, putUvarint_length _ h1]
  omega

theorem varint_sizeHeader (s : Int) (h0 : 0 ≤ s) (h1 : s < 2 ^ 62) :
    (varint (sizeHeader s)).1 = s := by
  have hz : zigzag s = 2 * s.toNat := zigzag_nonneg s h0 h1
  have hlen : uvlen (zigzag s) ≤ 9 := by
    rw [hz]
    exact uvlen_le 9 _ (by norm_num) (by norm_num; omega)
  unfold sizeHeader padTo
  rw [varint, uvarint_putUvarint _ _ hlen, hz]
  dsimp only
  rw [if_pos (by omega)]
  omega

theorem encodeMsg_length_lt (m : MqttMessage) (hm : Bounded m) :
    (encodeMsg m).length < 2 ^ 40 := by
  obtain ⟨-, -, h3, h4, -, -⟩ := hm
  have ht : (strHeader m.Topic.length).length ≤ 5 := by
    unfold strHeader
    split
    · simp
    · split
      · simp
      · split <;> simp [beBytes_length]
  have hb : (binHeader m.Payload.length).length ≤ 5 := by
    unfold binHeader
    split
    · simp
    · split <;> simp [beBytes_length]
  unfold encodeMsg
  simp only [List.length_append, List.length_cons, beBytes_length, keyMillis, keyTopic,
    keyPayload, List.length_nil]
  norm_num
  omega

theorem encodeMsg_length_pos (m : MqttMessage) : 0 < (encodeMsg m).length := by
  unfold encodeMsg
  simp

theorem padTo_self (n : Nat) (bs : List Nat) (h : bs.length = n) : padTo n bs = bs := by
  unfold padTo
  rw [h]
  simp

/-- Reading a frame from the head of the file returns exactly its message
and serialized size and consumes exactly the frame. -/
theorem readEntry_frame (m : MqttMessage) (rest : List Nat) (hm : Bounded m) :
    readEntry (encodeFrame m ++ rest) = (.ok m ((encodeMsg m).length : Int), rest) := by
  have hpos := encodeMsg_length_pos m
  have hlt := encodeMsg_length_lt m hm
  have hsl : (sizeHeader ((encodeMsg m).length : Int)).length = 10 := sizeHeader_length _
  have hsv : (varint (sizeHeader ((encodeMsg m).length : Int))).1 = ((encodeMsg m).length : Int) :=
    varint_sizeHeader _ (by positivity) (by norm_num; omega)
  have hdec : decodeMsg (encodeMsg m) = some m := by
    have := decodeMsg_encodeMsg m [] hm
    simpa using this
  unfold encodeFrame
  rw [readEntry, List.append_assoc,
    if_neg (show ¬(sizeHeader ((encodeMsg m).length : Int) ++ (encodeMsg m ++ rest) = []) by
      intro hc
      have := congrArg List.length hc
      simp [hsl] at this)]
  simp only [List.take_left' hsl, List.drop_left' hsl, padTo_self _ _ hsl, hsv]
  rw [if_neg (show ¬(((encodeMsg m).length : Int) < 0) by omega)]
  rw [if_neg (show ¬(((encodeMsg m).length : Int).toNat ≠ 0 ∧ encodeMsg m ++ rest = []) by
    rintro ⟨-, hc⟩
    have h0 : encodeMsg m = [] := (List.append_eq_nil.mp hc).1
    rw [h0] at hpos
    simp at hpos)]
  simp only [Int.toNat_ofNat, List.take_left, List.drop_left]
  rw [padTo_self _ _ rfl, hdec]

theorem encodeFile_nil : encodeFile [] = [] := rfl

theorem encodeFile_cons (m : MqttMessage) (ms : List MqttMessage) :
    encodeFile (m :: ms) = encodeFrame m ++ encodeFile ms := by
  simp [encodeFile]

theorem readEntry_nil : readEntry [] = (.eof, []) := rfl

theorem readAll_encodeFile (ms : List MqttMessage) (hb : ∀ m ∈ ms, Bounded m) :
    readAll (ms.length + 1) (encodeFile ms) = some ms := by
  induction ms with
  | nil => rfl
  | cons m t ih =>
    have hf := readEntry_frame m (encodeFile t) (hb m (List.mem_cons_self m t))
    have iht := ih fun x hx => hb x (List.mem_cons_of_mem m hx)
    rw [List.length_cons, encodeFile_cons, readAll, hf]
    dsimp only
    rw [iht]
    rfl

/-- A file that ends right after a length prefix announcing a positive
payload: the payload `Read` gets no bytes, errors, and `readEntry` signals
end of stream. -/
theorem readEntry_sizeHeader_only (s : Int) (h0 : 0 < s) (h1 : s < 2 ^ 62) :
    readEntry (sizeHeader s) = (.eof, []) := by
  have hsl := sizeHeader_length s
  have hsv := varint_sizeHeader s (le_of_lt h0) h1
  have ht : List.take 10 (sizeHeader s) = sizeHeader s := by
    rw [← hsl]
    exact List.take_length _
  have hd : List.drop 10 (sizeHeader s) = [] := by
    rw [← hsl]
    exact List.drop_length _
  rw [readEntry, if_neg (by intro hc; rw [hc] at hsl; simp at hsl)]
  simp only [ht, hd, padTo_self _ _ hsl, hsv]
  rw [if_neg (show ¬(s < 0) by omega), if_pos ⟨by omega, trivial⟩]

/-- The `Init` fast-forward loop on a recording whose `k`-th message (0-based,
counting the already-read current message `m` first) is the first to reach
the start offset: it discards messages `0..k-1`, publishes message `k`
immediately and anchors on it. -/
theorem initLoop_publishes : ∀ (k : Nat) (m : MqttMessage) (ms : List MqttMessage)
    (fuel : Nat) (startMs rst : Int),
    (∀ x ∈ ms, Bounded x) → k < ms.length + 1 → k < fuel →
    startMs ≤ ((m :: ms).getD k emptyMessage).Millis - rst →
    (∀ j, j < k → ((m :: ms).getD j emptyMessage).Millis - rst < startMs) →
    initLoop startMs rst fuel m (encodeFile ms)
      = .published ((m :: ms).getD k emptyMessage) ((m :: ms).getD k emptyMessage).Millis
          (encodeFile ((m :: ms).drop (k + 1))) := by
  intro k
  induction k with
  | zero =>
    intro m ms fuel startMs rst hb hk hfuel hhit hmiss
    cases fuel with
    | zero => omega
    | succ f =>
      rw [initLoop, if_pos (by simpa using hhit)]
      simp
  | succ k ih =>
    intro m ms fuel startMs rst hb hk hfuel hhit hmiss
    cases fuel with
    | zero => omega
    | succ f =>
      have hm0 := hmiss 0 (by omega)
      rw [initLoop, if_neg (by simp at hm0 ⊢; omega)]
      cases ms with
      | nil => simp at hk
      | cons m' t =>
        rw [encodeFile_cons, readEntry_frame m' (encodeFile t) (hb m' (by simp))]
        have := ih m' t f startMs rst (fun x hx => hb x (by simp [hx]))
          (by simpa using hk) (by omega)
          (by simpa using hhit)
          (fun j hj => by simpa using hmiss (j + 1) (by omega))
        simpa using this

/-- The `Init` fast-forward loop never returns when no message (nor the zero
message that `readEntry` yields at end of file) reaches the start offset:
whatever the iteration allowance, it is exhausted. -/
theorem initLoop_diverges : ∀ (fuel : Nat) (ms : List MqttMessage) (startMs rst : Int)
    (msg : MqttMessage),
    (∀ x ∈ ms, Bounded x) → msg.Millis - rst < startMs →
    (∀ x ∈ ms, x.Millis - rst < startMs) → 0 - rst < startMs →
    initLoop startMs rst fuel msg (encodeFile ms) = .fuelOut := by
  intro fuel
  induction fuel with
  | zero => intro ms startMs rst msg _ _ _ _; rfl
  | succ f ih =>
    intro ms startMs rst msg hb hmsg hall hzero
    rw [initLoop, if_neg (by omega)]
    cases ms with
    | nil =>
      show initLoop startMs rst f emptyMessage [] = .fuelOut
      have := ih [] startMs rst emptyMessage (by simp) (by simp [emptyMessage]; omega)
        (by simp) hzero
      simpa [encodeFile] using this
    | cons m' t =>
      rw [encodeFile_cons, readEntry_frame m' (encodeFile t) (hb m' (by simp))]
      exact ih t startMs rst m' (fun x hx => hb x (by simp [hx]))
        (hall m' (by simp)) (fun x hx => hall x (by simp [hx])) hzero

/-- The pacing wait returns the first poll at which the wall clock has
reached the target: the clock reading there is at or past the target, and
every earlier poll (from the scan start) was strictly before it. -/
theorem spinWaitIdx_spec (clock : Nat → Int) (target : Int) :
    ∀ (fuel start k : Nat), spinWaitIdx clock target fuel start = some k →
    target ≤ clock k ∧ ∀ j, start ≤ j → j < k → clock j < target := by
  intro fuel
  induction fuel with
  | zero =>
    intro start k h
    simp [spinWaitIdx] at h
  | succ fuel ih =>
    intro start k h
    rw [spinWaitIdx] at h
    by_cases hc : clock start ≥ target
    · rw [if_pos hc] at h
      have hk : start = k := Option.some.inj h
      subst hk
      exact ⟨hc, fun j hj1 hj2 => by omega⟩
    · rw [if_neg hc] at h
      obtain ⟨h1, h2⟩ := ih (start + 1) k h
      refine ⟨h1, fun j hj1 hj2 => ?_⟩
      rcases Nat.eq_or_lt_of_le hj1 with heq | hlt
      · subst heq
        exact lt_of_not_ge hc
      · exact h2 j hlt hj2

/-! ## Claims -/
/-- C1: for every message with arbitrary (machine-representable) topic and
payload bytes — zero-length payload included — decoding the encoded frame
yields the message back exactly: the msgpack bytes written by the recorder
unmarshal to the same timestamp, topic and byte-for-byte payload, and
`readEntry` on the recorded frame returns exactly that message. -/
theorem roundtrip_encode_decode (m : MqttMessage) (hm : Bounded m) :
    decodeMsg (encodeMsg m) = some m ∧
    readEntry (encodeFrame m) = (.ok m ((encodeMsg m).length : Int), []) := by
  constructor
  · have := decodeMsg_encodeMsg m [] hm
    simpa using this
  · have := readEntry_frame m [] hm
    simpa using this

/-- C1 witness at a concrete message with empty payload. -/
theorem roundtrip_encode_decode_witness :
    Bounded ⟨1700000000000, [97, 98], []⟩ ∧
    (decodeMsg (encodeMsg ⟨1700000000000, [97, 98], []⟩) = some ⟨1700000000000, [97, 98], []⟩ ∧
      readEntry (encodeFrame ⟨1700000000000, [97, 98], []⟩)
        = (.ok ⟨1700000000000, [97, 98], []⟩
            ((encodeMsg ⟨1700000000000, [97, 98], []⟩).length : Int), [])) :=
  ⟨by decide, roundtrip_encode_decode ⟨1700000000000, [97, 98], []⟩ (by decide)⟩

/-- C2: a recording holding `m1, ..., mn` in order is read back by `n`
successive `readEntry` calls as exactly `m1, ..., mn`, the `(n+1)`-th call
signalling end of stream. -/
theorem recording_read_back_in_order (ms : List MqttMessage) (hb : ∀ m ∈ ms, Bounded m) :
    readAll (ms.length + 1) (encodeFile ms) = some ms :=
  readAll_encodeFile ms hb

/-- C2 witness on a concrete three-message recording. -/
theorem recording_read_back_in_order_witness :
    (∀ m ∈ [(⟨1000, [97], [1]⟩ : MqttMessage), ⟨1000, [98], []⟩, ⟨1500, [97], [2, 3]⟩],
      Bounded m) ∧
    readAll 4 (encodeFile [⟨1000, [97], [1]⟩, ⟨1000, [98], []⟩, ⟨1500, [97], [2, 3]⟩])
      = some [⟨1000, [97], [1]⟩, ⟨1000, [98], []⟩, ⟨1500, [97], [2, 3]⟩] :=
  ⟨by decide,
    recording_read_back_in_order [⟨1000, [97], [1]⟩, ⟨1000, [98], []⟩, ⟨1500, [97], [2, 3]⟩]
      (by decide)⟩

/-- C3 counterexample: a trailing frame whose announced payload byte is
present but is not a valid msgpack message (`0xc1` is a reserved byte the
unmarshaller rejects) makes `readEntry` take the `log.Fatalln` path — the
process terminates — rather than yield the end-of-stream signal the claim
asserts for every malformed trailing frame. -/
theorem corrupt_trailing_frame_is_fatal :
    readEntry (sizeHeader 1 ++ [0xc1]) = (.fatal, []) ∧
    ReadResult.fatal ≠ ReadResult.eof := by
  decide

/-- C3 amended: reading past the last valid frame when no bytes remain — a
0-byte file on the very first call, and a file truncated right after a
length prefix announcing a positive payload — yields the end-of-stream
signal; but a trailing frame whose payload bytes are present yet malformed
is fatal (`log.Fatalln`), as the counterexample shows. -/
theorem eof_only_when_reads_fail :
    readEntry ([] : List Nat) = (.eof, []) ∧
    ∀ s : Int, 0 < s → s < 2 ^ 62 → readEntry (sizeHeader s) = (.eof, []) :=
  ⟨readEntry_nil, readEntry_sizeHeader_only⟩

/-- C3 witness: the amended claim at the empty file and at a file truncated
after a prefix announcing 5 payload bytes. -/
theorem eof_only_when_reads_fail_witness :
    readEntry ([] : List Nat) = (.eof, []) ∧ readEntry (sizeHeader 5) = (.eof, []) :=
  ⟨eof_only_when_reads_fail.1, eof_only_when_reads_fail.2 5 (by norm_num) (by norm_num)⟩

/-- C4: with start offset `S` seconds, `Playback.Init` reads frames from the
start of the file, skips every message whose relative timestamp is below
`S*1000` ms, and publishes the first message at or past `S*1000` immediately
— the publish in `Init` is not guarded by any wall-clock wait — anchoring
`firstMsgMillis` on that message (`firstMsgWallclock` is sampled at that
same moment). -/
theorem init_skips_to_start_offset (m0 : MqttMessage) (ms : List MqttMessage)
    (S k fuel : Nat) (hb : Bounded m0 ∧ ∀ x ∈ ms, Bounded x)
    (hS : S * 1000 < 2 ^ 63) (hk : k < ms.length + 1) (hfuel : k < fuel)
    (hhit : ((S * 1000 : Nat) : Int) ≤ ((m0 :: ms).getD k emptyMessage).Millis - m0.Millis)
    (hmiss : ∀ j, j < k →
      ((m0 :: ms).getD j emptyMessage).Millis - m0.Millis < ((S * 1000 : Nat) : Int)) :
    playbackInit S (encodeFile (m0 :: ms)) fuel
      = .published ((m0 :: ms).getD k emptyMessage) ((m0 :: ms).getD k emptyMessage).Millis
          (encodeFile ((m0 :: ms).drop (k + 1))) := by
  obtain ⟨hb0, hbs⟩ := hb
  have hof := ofUInt64_small (S * 1000) hS
  unfold playbackInit
  rw [encodeFile_cons, readEntry_frame m0 (encodeFile ms) hb0]
  dsimp only
  rw [hof]
  exact initLoop_publishes k m0 ms fuel _ m0.Millis hbs hk hfuel hhit hmiss

/-- C4 witness: the spec's scenario — offset 2 s on a recording at
timestamps 1000/1500/3000 ms skips the first two messages and publishes the
third. -/
theorem init_skips_to_start_offset_witness :
    playbackInit 2
        (encodeFile [⟨1000, [97], [1]⟩, ⟨1500, [98], []⟩, ⟨3000, [97], [171, 205]⟩]) 3
      = .published ⟨3000, [97], [171, 205]⟩ 3000 [] :=
  init_skips_to_start_offset ⟨1000, [97], [1]⟩ [⟨1500, [98], []⟩, ⟨3000, [97], [171, 205]⟩]
    2 2 3 ⟨by decide, by decide⟩ (by norm_num) (by norm_num) (by norm_num)
    (by decide) (by decide)

/-- C5: with a configured end offset `E > 0`, a next message whose relative
timestamp strictly exceeds `E*1000` ms stops playback without being
published; one whose relative timestamp equals `E*1000` exactly is still
published. -/
theorem end_offset_strict (m : MqttMessage) (rest : List Nat) (E : Nat)
    (rst fmm fwc : Int) (clock : Nat → Int) (spinFuel : Nat)
    (hm : Bounded m) (hE : 0 < E) (hE2 : E * 1000 < 2 ^ 63) :
    (m.Millis - rst > ((E * 1000 : Nat) : Int) →
      playNextMessage true E rst fmm fwc clock spinFuel (encodeFrame m ++ rest)
        = (.endTimeReached, rest)) ∧
    (m.Millis - rst = ((E * 1000 : Nat) : Int) → 0 < spinFuel →
      fwc + (m.Millis - fmm) ≤ clock 0 →
      playNextMessage true E rst fmm fwc clock spinFuel (encodeFrame m ++ rest)
        = (.published m ((encodeMsg m).length : Int) 0, rest)) := by
  have hof := ofUInt64_small (E * 1000) hE2
  constructor
  · intro hgt
    unfold playNextMessage
    rw [readEntry_frame m rest hm]
    dsimp only
    rw [hof, if_pos ⟨rfl, hgt⟩]
  · intro heq hsf hclk
    unfold playNextMessage
    rw [readEntry_frame m rest hm]
    dsimp only
    rw [hof, if_neg (by rintro ⟨-, hc⟩; omega)]
    cases spinFuel with
    | zero => omega
    | succ f =>
      rw [spinWaitIdx, if_pos hclk]

/-- C5 witness: end offset 1 s; a message at relative 2000 ms is not
published, a message at exactly 1000 ms is. -/
theorem end_offset_strict_witness :
    playNextMessage true 1 0 0 0 (fun _ => 5000) 1 (encodeFrame ⟨2000, [97], []⟩ ++ [])
      = (.endTimeReached, []) ∧
    playNextMessage true 1 0 0 0 (fun _ => 5000) 1 (encodeFrame ⟨1000, [97], []⟩ ++ [])
      = (.published ⟨1000, [97], []⟩ ((encodeMsg ⟨1000, [97], []⟩).length : Int) 0, []) :=
  ⟨(end_offset_strict ⟨2000, [97], []⟩ [] 1 0 0 0 (fun _ => 5000) 1 (by decide) (by norm_num)
      (by norm_num)).1 (by decide),
    (end_offset_strict ⟨1000, [97], []⟩ [] 1 0 0 0 (fun _ => 5000) 1 (by decide) (by norm_num)
      (by norm_num)).2 (by decide) (by norm_num) (by decide)⟩

/-- C6: whenever `PlayNextMessage` publishes a message, the wall clock at
the publishing poll has reached the target
`firstMsgWallclock + (msg.Millis - firstMsgMillis) + accumulatedHaltOffset`
(the halt offset being identically zero in this player, which has no pause
controls), and every earlier poll of the short-sleep loop observed a clock
strictly before the target — the scheduler waits until the target, never
publishing early. -/
theorem pacing_waits_for_target (endAvail : Bool) (E : Nat) (rst fmm fwc : Int)
    (clock : Nat → Int) (spinFuel : Nat) (bs bs' : List Nat) (m : MqttMessage)
    (size : Int) (k : Nat)
    (h : playNextMessage endAvail E rst fmm fwc clock spinFuel bs
      = (.published m size k, bs')) :
    fwc + (m.Millis - fmm) + accumulatedHaltOffset ≤ clock k ∧
    ∀ j, j < k → clock j < fwc + (m.Millis - fmm) + accumulatedHaltOffset := by
  unfold playNextMessage at h
  rcases hre : readEntry bs with ⟨r, rest⟩
  rw [hre] at h
  cases r with
  | eof => simp at h
  | fatal => simp at h
  | panicked => simp at h
  | ok msg sz =>
    dsimp only at h
    by_cases hc : endAvail = true ∧ msg.Millis - rst > ofUInt64 (E * 1000 % 2 ^ 64)
    · rw [if_pos hc] at h
      simp at h
    · rw [if_neg hc] at h
      rcases hsw : spinWaitIdx clock (fwc + (msg.Millis - fmm)) spinFuel 0 with - | k0
      · rw [hsw] at h
        simp at h
      · rw [hsw] at h
        simp only [Prod.mk.injEq, PlayOutcome.published.injEq] at h
        obtain ⟨⟨e1, -, e3⟩, -⟩ := h
        rw [e1, e3] at hsw
        have hs := spinWaitIdx_spec clock (fwc + (m.Millis - fmm)) spinFuel 0 k hsw
        rw [accumulatedHaltOffset]
        exact ⟨by have := hs.1; omega, fun j hj => by have := hs.2 j (by omega) hj; omega⟩

/-- C6 witness: a message of timestamp 2 against a zero anchor and the clock
`n ↦ n` is published at poll 2, the first poll at which the clock reaches
the target. -/
theorem pacing_waits_for_target_witness :
    (0 : Int) + ((⟨2, [97], [1]⟩ : MqttMessage).Millis - 0) + accumulatedHaltOffset
        ≤ ((2 : Nat) : Int) ∧
    ∀ j, j < 2 → ((j : Nat) : Int)
        < (0 : Int) + ((⟨2, [97], [1]⟩ : MqttMessage).Millis - 0) + accumulatedHaltOffset :=
  pacing_waits_for_target false 0 0 0 0 (fun n => (n : Int)) 5 (encodeFrame ⟨2, [97], [1]⟩)
    [] ⟨2, [97], [1]⟩ ((encodeMsg ⟨2, [97], [1]⟩).length : Int) 2 (by decide)

/-- C7 counterexample: with a broker client whose publish token reports a
failure, `publish` emits no log line at all — the claim's "the failure is
logged" is false; the body never inspects `token.Error()`. -/
theorem publish_failure_never_logged :
    (publish ⟨fun _ _ => true⟩ ⟨0, [100], [1]⟩).logs = [] ∧
    (publish ⟨fun _ _ => true⟩ ⟨0, [100], [1]⟩).terminated = false ∧
    (publish ⟨fun _ _ => true⟩ ⟨0, [100], [1]⟩).calls.length = 1 :=
  ⟨rfl, rfl, rfl⟩

/-- C7 amended: a failed publish during playback is silently ignored, not
logged: whatever the token's error state, `publish` makes exactly one
publish call (no retry), writes no log line, and never terminates the
session — its observable effect is the same as on success. -/
theorem publish_failure_silently_ignored (client : MqttClient) (msg : MqttMessage) :
    publish client msg = ⟨[(msg.Topic, 0, false, msg.Payload)], [], false⟩ ∧
    publish client msg = publish ⟨fun _ _ => false⟩ msg :=
  ⟨rfl, rfl⟩

/-- C8: the first message on a topic only initializes the statistics entry —
count zero, last-message timestamp recorded, both metrics left uninitialized
with min/avg/max untouched at zero — while every later message increments
the count and runs both metrics through the update that seeds-or-lowers the
min, raises the max, and folds the value into the streaming average
`avg*(n-1)/n + value/n`. -/
theorem stats_first_message_exempt (msgStats : List Nat → Option MsgStats)
    (topic : List Nat) (t size : Nat) :
    (msgStats topic = none →
      handleStats msgStats topic t size topic
        = some ⟨t, 0, ⟨false, 0, 0, 0⟩, ⟨false, 0, 0, 0⟩⟩) ∧
    (∀ s, msgStats topic = some s →
      handleStats msgStats topic t size topic
        = some ⟨t, s.NumMsgs + 1,
            s.TimeDiffMillis.updateTimeDiffStats (wrapSub t s.LastMsgMillis) (s.NumMsgs + 1),
            s.MsgSizeByte.updateTimeDiffStats size (s.NumMsgs + 1)⟩) ∧
    (∀ (sv : StatValues) (c n : Nat),
      sv.updateTimeDiffStats c n
        = ⟨true, if sv.initialized then Nat.min sv.min c else c,
            sv.avg * ((n : ℚ) - 1) / (n : ℚ) + (c : ℚ) / (n : ℚ),
            if sv.initialized then Nat.max sv.max c else c⟩) := by
  refine ⟨?_, ?_, ?_⟩
  · intro h
    unfold handleStats
    rw [h]
    simp
  · intro s h
    unfold handleStats
    rw [h]
    simp
  · intro sv c n
    unfold StatValues.updateTimeDiffStats
    by_cases hi : sv.initialized <;>
      simp only [hi, Bool.not_true, Bool.not_false, if_true, if_false] <;>
      split_ifs <;>
      simp_all [StatValues.mk.injEq] <;>
      omega

/-- C8 witness: a fresh topic's entry after its first message, and one
concrete metric update (`min 1, avg 2, max 9` fed `4` as second sample). -/
theorem stats_first_message_exempt_witness :
    handleStats (fun _ => none) [97] 5 3 [97]
      = some ⟨5, 0, ⟨false, 0, 0, 0⟩, ⟨false, 0, 0, 0⟩⟩ ∧
    StatValues.updateTimeDiffStats ⟨true, 1, 2, 9⟩ 4 2
      = ⟨true, if (true : Bool) then Nat.min 1 4 else 4,
          (2 : ℚ) * ((2 : ℚ) - 1) / (2 : ℚ) + (4 : ℚ) / (2 : ℚ),
          if (true : Bool) then Nat.max 9 4 else 4⟩ :=
  ⟨(stats_first_message_exempt (fun _ => none) [97] 5 3).1 rfl,
    (stats_first_message_exempt (fun _ => none) [97] 5 3).2.2 ⟨true, 1, 2, 9⟩ 4 2⟩

/-- C9: when the configured start offset exceeds the relative timestamp of
every message of the recording — the empty recording included — the `Init`
fast-forward loop never terminates: at end of file `readEntry` keeps
returning the zero message, whose relative timestamp `0 - recordingStartTime`
never reaches the offset, so however many iterations are allowed the loop is
still running. -/
theorem init_loop_diverges_past_end (ms : List MqttMessage) (S : Nat)
    (hb : ∀ m ∈ ms, Bounded m) (hS : S * 1000 < 2 ^ 63)
    (hall : ∀ m ∈ ms, m.Millis - (ms.getD 0 emptyMessage).Millis < ((S * 1000 : Nat) : Int))
    (hzero : 0 - (ms.getD 0 emptyMessage).Millis < ((S * 1000 : Nat) : Int)) :
    ∀ fuel, playbackInit S (encodeFile ms) fuel = .fuelOut := by
  intro fuel
  have hof := ofUInt64_small (S * 1000) hS
  cases ms with
  | nil =>
    rw [List.getD_nil] at hzero
    have hem : emptyMessage.Millis = 0 := rfl
    rw [hem] at hzero
    unfold playbackInit
    rw [encodeFile_nil, readEntry_nil]
    dsimp only
    rw [hof]
    have := initLoop_diverges fuel [] ((S * 1000 : Nat) : Int) 0 emptyMessage (by simp)
      (by rw [hem]; omega) (by simp) (by omega)
    simpa [encodeFile] using this
  | cons m0 t =>
    rw [List.getD_cons_zero] at hzero hall
    unfold playbackInit
    rw [encodeFile_cons, readEntry_frame m0 (encodeFile t) (hb m0 (by simp))]
    dsimp only
    rw [hof]
    exact initLoop_diverges fuel t _ m0.Millis m0 (fun x hx => hb x (by simp [hx]))
      (hall m0 (by simp)) (fun x hx => hall x (by simp [hx])) hzero

/-- C9 witness: a one-message recording at 1000 ms with start offset 1 s is
still fast-forwarding after 7 iterations. -/
theorem init_loop_diverges_past_end_witness :
    playbackInit 1 (encodeFile [⟨1000, [97], []⟩]) 7 = .fuelOut :=
  init_loop_diverges_past_end [⟨1000, [97], []⟩] 1 (by decide) (by norm_num) (by decide)
    (by decide) 7

/-- C10: the frame length prefix is always exactly
`binary.MaxVarintLen64 = 10` bytes, whatever the encoded value; a frame
occupies `10 + payload_size` bytes on disk; the decoded prefix value equals
the byte length of the serialized message that follows; and the reader
consumes exactly the 10-byte prefix and then the payload, leaving the next
frame intact. -/
theorem frame_prefix_fixed_width :
    (∀ s : Int, (sizeHeader s).length = 10) ∧
    (∀ m : MqttMessage, Bounded m →
      (encodeFrame m).length = 10 + (encodeMsg m).length ∧
      (varint (sizeHeader ((encodeMsg m).length : Int))).1 = ((encodeMsg m).length : Int) ∧
      ∀ rest, readEntry (encodeFrame m ++ rest) = (.ok m ((encodeMsg m).length : Int), rest)) := by
  refine ⟨sizeHeader_length, fun m hm => ⟨?_, ?_, fun rest => readEntry_frame m rest hm⟩⟩
  · unfold encodeFrame
    rw [List.length_append, sizeHeader_length]
  · exact varint_sizeHeader _ (by positivity)
      (by have := encodeMsg_length_lt m hm; norm_num; omega)

/-- C10 witness: the prefix width at a negative value and the frame size at
a concrete message. -/
theorem frame_prefix_fixed_width_witness :
    (sizeHeader (-3)).length = 10 ∧
    (encodeFrame ⟨7, [], [0]⟩).length = 10 + (encodeMsg ⟨7, [], [0]⟩).length :=
  ⟨frame_prefix_fixed_width.1 (-3), (frame_prefix_fixed_width.2 ⟨7, [], [0]⟩ (by decide)).1⟩
